import Mathlib

/-!
Verification of the Porter stemmer implementation in
`vanilla_porter_stemmer_module_v25.py`.

The Python module is shallowly embedded here on `List Char`.  Character
classes (`str.isalpha`, `str.lower`, the regex classes `\w` and
`[^\W\d_]`) are modelled on their ASCII fragment with explicit character
tables.  Fallible Python code — methods that can raise — is embedded as
`Except`-valued functions; pure string manipulation is embedded as pure
functions.  The validation prologues of `_is_consonant`, `_measure`,
`_contains_vowel`, `_ends_with_double_consonant` and `_ends_cvc` all
raise exactly when the examined word contains a non-alphabetic character
(they each validate the whole word, with every call made at a valid
index), so those wrappers are embedded with a single whole-word
alphabetic test guarding the pure classifier.
-/

namespace Porter

/-- The 26 lowercase ASCII letters, as the model of the lowercase alphabet. -/
def lowerAlphaChars : List Char :=
  ['a', 'b', 'c', 'd', 'e', 'f', 'g', 'h', 'i', 'j', 'k', 'l', 'm',
   'n', 'o', 'p', 'q', 'r', 's', 't', 'u', 'v', 'w', 'x', 'y', 'z']

/-- The 26 uppercase ASCII letters. -/
def upperAlphaChars : List Char :=
  ['A', 'B', 'C', 'D', 'E', 'F', 'G', 'H', 'I', 'J', 'K', 'L', 'M',
   'N', 'O', 'P', 'Q', 'R', 'S', 'T', 'U', 'V', 'W', 'X', 'Y', 'Z']

/-- The ASCII digits. -/
def digitChars : List Char :=
  ['0', '1', '2', '3', '4', '5', '6', '7', '8', '9']

/-- Membership in the lowercase alphabet. -/
def isLowerAlphaChar (c : Char) : Bool :=
  c ∈ lowerAlphaChars

/-- Membership in the uppercase alphabet. -/
def isUpperAlphaChar (c : Char) : Bool :=
  c ∈ upperAlphaChars

/-- Model of Python `str.isalpha` on a single character (ASCII fragment). -/
def isAlphaChar (c : Char) : Bool :=
  isLowerAlphaChar c || isUpperAlphaChar c

/-- Uppercase/lowercase letter pairs, used to model Python case conversion. -/
def caseTable : List (Char × Char) :=
  [('A', 'a'), ('B', 'b'), ('C', 'c'), ('D', 'd'), ('E', 'e'), ('F', 'f'),
   ('G', 'g'), ('H', 'h'), ('I', 'i'), ('J', 'j'), ('K', 'k'), ('L', 'l'),
   ('M', 'm'), ('N', 'n'), ('O', 'o'), ('P', 'p'), ('Q', 'q'), ('R', 'r'),
   ('S', 's'), ('T', 't'), ('U', 'u'), ('V', 'v'), ('W', 'w'), ('X', 'x'),
   ('Y', 'y'), ('Z', 'z')]

/-- Model of Python `str.lower` on one character (ASCII fragment):
uppercase letters map to their lowercase pair, everything else is fixed. -/
def pyLower (c : Char) : Char :=
  ((caseTable.lookup c).getD c)

/-- Model of Python `str.upper` on one character (ASCII fragment). -/
def pyUpper (c : Char) : Char :=
  (((caseTable.map (fun p => (p.2, p.1))).lookup c).getD c)

/-- Shorthand turning a string literal into the `List Char` it denotes. -/
def sfx (s : String) : List Char :=
  s.toList

/-- The vowel set of the source, `self.vowels = set("aeiouAEIOU")`. -/
def vowelChars : List Char :=
  ['a', 'e', 'i', 'o', 'u', 'A', 'E', 'I', 'O', 'U']

/-- Embedding of `_is_consonant(word, index)`, the pure classification
(after its validation prologue).  A character is a vowel iff it is in
`vowelChars`; the letter y at index 0 is a consonant and at a later
index is a consonant exactly when the previous character is a vowel
(evaluated by the same recursion, mirroring the recursive call of the
source); every other character is a consonant. -/
def isConsonant (w : List Char) : Nat → Bool
  | 0 =>
    let c := w.getD 0 'a'
    if c ∈ vowelChars then false
    else if c = 'y' ∨ c = 'Y' then true
    else true
  | i + 1 =>
    let c := w.getD (i + 1) 'a'
    if c ∈ vowelChars then false
    else if c = 'y' ∨ c = 'Y' then !(isConsonant w i)
    else true

/-- The consonant/vowel pattern built by `_measure`: entry `i` is the
classification of position `i` (`true` = consonant, the letter c of the
source pattern string). -/
def cvPattern (w : List Char) : List Bool :=
  (List.range w.length).map (fun i => isConsonant w i)

/-- The adjacent-pair count of `_measure`: the number of positions where
a vowel (`false`) is immediately followed by a consonant (`true`). -/
def vcPairCount : List Bool → Nat
  | a :: b :: rest => (if a = false ∧ b = true then 1 else 0) + vcPairCount (b :: rest)
  | _ => 0

/-- Embedding of `_measure(word)` after validation: build the
consonant/vowel pattern and count adjacent vowel-consonant pairs. -/
def measure (w : List Char) : Nat :=
  vcPairCount (cvPattern w)

/-- Embedding of `_contains_vowel(word)` after validation: some position
is classified as a vowel. -/
def containsVowel (w : List Char) : Bool :=
  (List.range w.length).any (fun i => !(isConsonant w i))

/-- Embedding of `_ends_with_double_consonant(word)` after validation. -/
def endsWithDoubleConsonant (w : List Char) : Bool :=
  if w.length < 2 then false
  else if w.getD (w.length - 1) 'a' = w.getD (w.length - 2) 'a' then
    isConsonant w (w.length - 1)
  else false

/-- Embedding of `_ends_cvc(word)` after validation: the last three
characters are consonant, vowel, consonant and the final character
(lowercased, as in the source) is not w, x or y. -/
def endsCVC (w : List Char) : Bool :=
  if w.length < 3 then false
  else if isConsonant w (w.length - 3) && !(isConsonant w (w.length - 2))
          && isConsonant w (w.length - 1) then
    if pyLower (w.getD (w.length - 1) 'a') ∈ (['w', 'x', 'y'] : List Char) then false
    else true
  else false

/-- Embedding of `_is_consonant` including its raising validation: the
call raises unless the word is non-empty, the index is in bounds and the
whole word is alphabetic; otherwise it returns the pure classification. -/
def isConsonantE (w : List Char) (i : Nat) : Except Unit Bool :=
  if w ≠ [] ∧ i < w.length ∧ w.all isAlphaChar then .ok (isConsonant w i)
  else .error ()

/-- Embedding of `_measure` including its raising validation: the empty
word returns 0 before the alphabetic check; a non-empty word with a
non-alphabetic character raises. -/
def measureE (w : List Char) : Except Unit Nat :=
  if w = [] then .ok 0
  else if w.all isAlphaChar then .ok (measure w)
  else .error ()

/-- Embedding of `_contains_vowel` including raising: the loop body is
`_is_consonant(word, i)` over the valid indices, whose only failure mode
is the whole-word alphabetic check, so the empty word returns `false`
and a non-empty non-alphabetic word raises on the first iteration. -/
def containsVowelE (w : List Char) : Except Unit Bool :=
  if w = [] then .ok false
  else if w.all isAlphaChar then .ok (containsVowel w)
  else .error ()

/-- Embedding of `_ends_with_double_consonant` including raising: a word
of length below 2 returns `false`; then `word[-1] == word[-2]` is tested
before `_is_consonant` is called (Python `and` short-circuits), so only
a word with equal last two characters can raise. -/
def endsWithDoubleConsonantE (w : List Char) : Except Unit Bool :=
  if w.length < 2 then .ok false
  else if w.getD (w.length - 1) 'a' = w.getD (w.length - 2) 'a' then
    match isConsonantE w (w.length - 1) with
    | .error e => .error e
    | .ok c => .ok c
  else .ok false

/-- Embedding of `_ends_cvc` including raising: length below 3 returns
`false`; otherwise the three `_is_consonant` calls are all made at valid
indices of the same word, so their shared failure mode is the whole-word
alphabetic check. -/
def endsCVCE (w : List Char) : Except Unit Bool :=
  if w.length < 3 then .ok false
  else if w.all isAlphaChar then .ok (endsCVC w)
  else .error ()

/-- The two rule dialects: `original` embeds mode `"ORIGINAL"` (the
strict dialect) and `nltkExtensions` embeds mode `"NLTK_EXTENSIONS"`
(the extended dialect). -/
inductive Mode where
  | original
  | nltkExtensions
deriving DecidableEq

/-- The construction-time configuration of `PorterVanillaPyStemmer`. -/
structure Config where
  toLowercase : Bool
  preserveOriginalOnError : Bool
  mode : Mode

/-- The constructor defaults: `to_lowercase=True`,
`preserve_original_on_error=True`, `mode="ORIGINAL"`. -/
def defaultConfig : Config :=
  ⟨true, true, Mode.original⟩

/-- Embedding of `self.original_special_words`. -/
def originalSpecialWords : List (List Char × List Char) :=
  [(sfx "sky", sfx "sky"),
   (sfx "skies", sfx "sky"),
   (sfx "news", sfx "news"),
   (sfx "innings", sfx "inning"),
   (sfx "outing", sfx "outing"),
   (sfx "canning", sfx "canning"),
   (sfx "howe", sfx "howe"),
   (sfx "proceed", sfx "proceed"),
   (sfx "exceed", sfx "exceed"),
   (sfx "succeed", sfx "succeed")]

/-- Embedding of `self.special_words` (the NLTK-extension table). -/
def nltkSpecialWords : List (List Char × List Char) :=
  [(sfx "sky", sfx "sky"),
   (sfx "skies", sfx "sky"),
   (sfx "dies", sfx "die"),
   (sfx "ties", sfx "tie"),
   (sfx "lies", sfx "lie"),
   (sfx "dying", sfx "die"),
   (sfx "lying", sfx "lie"),
   (sfx "tying", sfx "tie"),
   (sfx "news", sfx "news"),
   (sfx "innings", sfx "inning"),
   (sfx "outing", sfx "outing"),
   (sfx "canning", sfx "canning"),
   (sfx "howe", sfx "howe"),
   (sfx "proceed", sfx "proceed"),
   (sfx "exceed", sfx "exceed"),
   (sfx "succeed", sfx "succeed")]

/-- The irregular-form table active in each dialect. -/
def specialTable : Mode → List (List Char × List Char)
  | Mode.original => originalSpecialWords
  | Mode.nltkExtensions => nltkSpecialWords

/-- The `suffix_mappings` list of `_step2`, in source order.  Note the
21st entry `logi -> log`, a departure from the 1980 paper kept by the
source (alongside `bli -> ble`). -/
def step2Table : List (List Char × List Char) :=
  [(sfx "ational", sfx "ate"),
   (sfx "tional", sfx "tion"),
   (sfx "enci", sfx "ence"),
   (sfx "anci", sfx "ance"),
   (sfx "izer", sfx "ize"),
   (sfx "bli", sfx "ble"),
   (sfx "alli", sfx "al"),
   (sfx "entli", sfx "ent"),
   (sfx "eli", sfx "e"),
   (sfx "ousli", sfx "ous"),
   (sfx "ization", sfx "ize"),
   (sfx "ation", sfx "ate"),
   (sfx "ator", sfx "ate"),
   (sfx "alism", sfx "al"),
   (sfx "iveness", sfx "ive"),
   (sfx "fulness", sfx "ful"),
   (sfx "ousness", sfx "ous"),
   (sfx "aliti", sfx "al"),
   (sfx "iviti", sfx "ive"),
   (sfx "biliti", sfx "ble"),
   (sfx "logi", sfx "log")]

/-- The `suffix_mappings` list of `_step3`, in source order. -/
def step3Table : List (List Char × List Char) :=
  [(sfx "icate", sfx "ic"),
   (sfx "ative", sfx ""),
   (sfx "alize", sfx "al"),
   (sfx "iciti", sfx "ic"),
   (sfx "ical", sfx "ic"),
   (sfx "ful", sfx ""),
   (sfx "ness", sfx "")]

/-- The `suffixes_to_remove` list of `_step4`, in source order; every
entry removes its suffix, embedded as an empty replacement. -/
def step4Table : List (List Char × List Char) :=
  [(sfx "al", sfx ""),
   (sfx "ance", sfx ""),
   (sfx "ence", sfx ""),
   (sfx "er", sfx ""),
   (sfx "ic", sfx ""),
   (sfx "able", sfx ""),
   (sfx "ible", sfx ""),
   (sfx "ant", sfx ""),
   (sfx "ement", sfx ""),
   (sfx "ment", sfx ""),
   (sfx "ent", sfx ""),
   (sfx "ou", sfx ""),
   (sfx "ism", sfx ""),
   (sfx "ate", sfx ""),
   (sfx "iti", sfx ""),
   (sfx "ous", sfx ""),
   (sfx "ive", sfx ""),
   (sfx "ize", sfx "")]

/-- Sequencing of `Except`-valued computations, written out so proofs
can unfold it by cases. -/
def exSeq (x : Except Unit (List Char)) (f : List Char → Except Unit (List Char)) :
    Except Unit (List Char) :=
  match x with
  | .error e => .error e
  | .ok v => f v

/-- The `for suffix, replacement in suffix_mappings` loop shared by
`_step2`, `_step3` and the table scan of `_step4`: on the first suffix
that matches, evaluate the measure of the stripped stem against the
threshold (`minM = 0` for steps 2 and 3, `minM = 1` for step 4) and
either rewrite or return the word unchanged — the `break` of the source
means no later suffix is ever examined. -/
def scanRulesE (minM : Nat) (w : List Char) :
    List (List Char × List Char) → Except Unit (List Char)
  | [] => .ok w
  | (s, r) :: rest =>
    if s.isSuffixOf w then
      match measureE (w.take (w.length - s.length)) with
      | .error e => .error e
      | .ok m => .ok (if minM < m then w.take (w.length - s.length) ++ r else w)
    else scanRulesE minM w rest

/-- Embedding of `_step1a`: plural suffixes, with the NLTK-only
`ies -> ie` branch for 4-letter words.  Pure: `_step1a` performs only
string operations and cannot raise. -/
def step1a (mode : Mode) (w : List Char) : List Char :=
  if (sfx "sses").isSuffixOf w then w.take (w.length - 2)
  else if mode = Mode.nltkExtensions ∧ (sfx "ies").isSuffixOf w ∧ w.length = 4 then
    w.take (w.length - 1)
  else if (sfx "ies").isSuffixOf w then w.take (w.length - 2)
  else if (sfx "ss").isSuffixOf w then w
  else if (sfx "s").isSuffixOf w then w.take (w.length - 1)
  else w

/-- The post-removal fixups of `_step1b`, applied after `ed` or `ing`
was removed: the elif chain `at/bl/iz -> +e`, then the double-consonant
removal (skipped, with no further checks, when the doubled letter is l,
s or z), then the `m=1` and ends-cvc `+e` rule. -/
def step1bFixE (w : List Char) : Except Unit (List Char) :=
  if (sfx "at").isSuffixOf w then .ok (w ++ sfx "e")
  else if (sfx "bl").isSuffixOf w then .ok (w ++ sfx "e")
  else if (sfx "iz").isSuffixOf w then .ok (w ++ sfx "e")
  else
    match endsWithDoubleConsonantE w with
    | .error e => .error e
    | .ok true =>
      if pyLower (w.getD (w.length - 1) 'a') ∈ (['l', 's', 'z'] : List Char) then .ok w
      else .ok (w.take (w.length - 1))
    | .ok false =>
      match measureE w with
      | .error e => .error e
      | .ok m =>
        if m = 1 then
          match endsCVCE w with
          | .error e => .error e
          | .ok b => .ok (if b then w ++ sfx "e" else w)
        else .ok w

/-- Embedding of `_step1b`: the `eed -> ee` rule guarded by
`m(stem) > 0`, else removal of `ed` or `ing` when the remaining stem
contains a vowel, followed by the fixups. -/
def step1b (w : List Char) : Except Unit (List Char) :=
  if (sfx "eed").isSuffixOf w then
    match measureE (w.take (w.length - 3)) with
    | .error e => .error e
    | .ok m => .ok (if 0 < m then w.take (w.length - 3) ++ sfx "ee" else w)
  else if (sfx "ed").isSuffixOf w then
    match containsVowelE (w.take (w.length - 2)) with
    | .error e => .error e
    | .ok true => step1bFixE (w.take (w.length - 2))
    | .ok false => .ok w
  else if (sfx "ing").isSuffixOf w then
    match containsVowelE (w.take (w.length - 3)) with
    | .error e => .error e
    | .ok true => step1bFixE (w.take (w.length - 3))
    | .ok false => .ok w
  else .ok w

/-- Embedding of `_step1c`: final y becomes i when the dialect guard on
the stem holds (`NLTK_EXTENSIONS`: stem length above 1 and the last stem
character is a consonant; `ORIGINAL`: the stem contains a vowel). -/
def step1c (mode : Mode) (w : List Char) : Except Unit (List Char) :=
  if (sfx "y").isSuffixOf w then
    match mode with
    | Mode.nltkExtensions =>
      if 1 < (w.take (w.length - 1)).length then
        match isConsonantE (w.take (w.length - 1)) ((w.take (w.length - 1)).length - 1) with
        | .error e => .error e
        | .ok c => if c then .ok (w.take (w.length - 1) ++ sfx "i") else .ok w
      else .ok w
    | Mode.original =>
      match containsVowelE (w.take (w.length - 1)) with
      | .error e => .error e
      | .ok cv => if cv then .ok (w.take (w.length - 1) ++ sfx "i") else .ok w
  else .ok w

/-- Embedding of `_step2`: scan the 21-entry table with threshold 0. -/
def step2 (w : List Char) : Except Unit (List Char) :=
  scanRulesE 0 w step2Table

/-- Embedding of `_step3`: scan the 7-entry table with threshold 0. -/
def step3 (w : List Char) : Except Unit (List Char) :=
  scanRulesE 0 w step3Table

/-- Embedding of `_step4`: the special `ion` case (removed when the stem
is non-empty, ends in s or t and has measure above 1; Python `and`
evaluates the measure only after the first two tests pass), otherwise
the 18-entry table scan with threshold 1. -/
def step4 (w : List Char) : Except Unit (List Char) :=
  if (sfx "ion").isSuffixOf w then
    if 0 < (w.take (w.length - 3)).length ∧
        ((w.take (w.length - 3)).getD ((w.take (w.length - 3)).length - 1) 'a' = 's' ∨
         (w.take (w.length - 3)).getD ((w.take (w.length - 3)).length - 1) 'a' = 't') then
      match measureE (w.take (w.length - 3)) with
      | .error e => .error e
      | .ok m =>
        if 1 < m then .ok (w.take (w.length - 3))
        else scanRulesE 1 w step4Table
    else scanRulesE 1 w step4Table
  else scanRulesE 1 w step4Table

/-- Embedding of `_step5a`: drop a final e when `m(stem) > 1`, or when
`m(stem) = 1` and the stem does not end consonant-vowel-consonant. -/
def step5a (w : List Char) : Except Unit (List Char) :=
  if (sfx "e").isSuffixOf w then
    match measureE (w.take (w.length - 1)) with
    | .error e => .error e
    | .ok m =>
      if 1 < m then .ok (w.take (w.length - 1))
      else if m = 1 then
        match endsCVCE (w.take (w.length - 1)) with
        | .error e => .error e
        | .ok b => if b then .ok w else .ok (w.take (w.length - 1))
      else .ok w
  else .ok w

/-- Embedding of `_step5b`: drop one l of a final ll when the measure of
the word without its last character is above 1. -/
def step5b (w : List Char) : Except Unit (List Char) :=
  if (sfx "ll").isSuffixOf w then
    match measureE (w.take (w.length - 1)) with
    | .error e => .error e
    | .ok m => .ok (if 1 < m then w.take (w.length - 1) else w)
  else .ok w

/-- The step pipeline of `stem_word`: steps 1a through 5b in sequence,
each feeding the next, with any raise propagating out. -/
def pipelineE (mode : Mode) (w : List Char) : Except Unit (List Char) :=
  exSeq (step1b (step1a mode w)) (fun w2 =>
  exSeq (step1c mode w2) (fun w3 =>
  exSeq (step2 w3) (fun w4 =>
  exSeq (step3 w4) (fun w5 =>
  exSeq (step4 w5) (fun w6 =>
  exSeq (step5a w6) (fun w7 =>
  step5b w7))))))

/-- Embedding of `_apply_case_pattern(original_word, stemmed_word)`:
empty stemmed word returns itself; empty original lowercases; a
non-alphabetic original raises ValueError; an all-uppercase or
all-lowercase original maps the whole stemmed word; otherwise the case
of each original position is copied onto the stemmed word, positions
past the original defaulting to lowercase.  (The None and type checks of
the source cannot fire in this typed embedding.) -/
def applyCasePattern (orig stemmed : List Char) : Except Unit (List Char) :=
  if stemmed = [] then .ok []
  else if orig = [] then .ok (stemmed.map pyLower)
  else if !(orig.all isAlphaChar) then .error ()
  else if orig.all isUpperAlphaChar then .ok (stemmed.map pyUpper)
  else if orig.all isLowerAlphaChar then .ok (stemmed.map pyLower)
  else .ok (stemmed.enum.map (fun p =>
    if p.1 < orig.length then
      if isUpperAlphaChar (orig.getD p.1 'a') then pyUpper p.2 else pyLower p.2
    else pyLower p.2))

/-- The body of the `try` block of `stem_word`: irregular lookup on the
lowercased word, the length filter for words of length at most 2, then
the step pipeline; case restoration applies on every return path when
`to_lowercase` is off. -/
def stemCoreE (cfg : Config) (w : List Char) : Except Unit (List Char) :=
  match (specialTable cfg.mode).lookup (w.map pyLower) with
  | some result =>
    if cfg.toLowercase then .ok result else applyCasePattern w result
  | none =>
    if (w.map pyLower).length ≤ 2 then
      if cfg.toLowercase then .ok (w.map pyLower)
      else applyCasePattern w (w.map pyLower)
    else
      exSeq (pipelineE cfg.mode (w.map pyLower)) (fun res =>
        if cfg.toLowercase then .ok res else applyCasePattern w res)

/-- The dynamically typed argument of the public entry points: Python
None, a string, or a value of any other type (represented by an
integer, the representative used by the specification's error cases). -/
inductive PyVal where
  | noneV
  | strV (s : List Char)
  | intV (n : Int)

/-- Whether a `PyVal` is a string. -/
def PyVal.isStr : PyVal → Bool
  | PyVal.strV _ => true
  | _ => false

/-- The errors surfaced by the entry points: the ValueError for None,
the ValueError for the empty word, the TypeError for a non-string word,
the wrapping RuntimeError of `stem_word` when
`preserve_original_on_error` is off, the TypeError of `stem_tokens`
naming the offending index, and the wrapping RuntimeError of
`stem_tokens` naming the failing index. -/
inductive Err where
  | invalidNone
  | invalidEmpty
  | invalidType
  | runtimeFailure
  | tokenType (i : Nat)
  | tokenRuntime (i : Nat)
deriving DecidableEq

/-- Embedding of `stem_word`: validation (None, non-string, empty)
always raises, before the `try` block; inside it the core either
returns, or its exception is swallowed (returning the original word)
when `preserve_original_on_error` is set and re-raised as a
RuntimeError otherwise. -/
def stemWord (cfg : Config) : PyVal → Except Err (List Char)
  | PyVal.noneV => .error Err.invalidNone
  | PyVal.intV _ => .error Err.invalidType
  | PyVal.strV w =>
    if w = [] then .error Err.invalidEmpty
    else
      match stemCoreE cfg w with
      | .ok r => .ok r
      | .error _ =>
        if cfg.preserveOriginalOnError then .ok w else .error Err.runtimeFailure

/-- The `for i, token in enumerate(tokens)` loop of `stem_tokens`: a
non-string token raises TypeError naming its index (outside the inner
`try`); a failing `stem_word` call is swallowed (appending the original
token) when `preserve_original_on_error` is set and raises a
RuntimeError naming the index otherwise. -/
def stemTokensGo (cfg : Config) (i : Nat) : List PyVal → Except Err (List (List Char))
  | [] => .ok []
  | t :: rest =>
    match t with
    | PyVal.strV s =>
      (match stemWord cfg (PyVal.strV s) with
       | .ok r =>
         (match stemTokensGo cfg (i + 1) rest with
          | .ok rs => .ok (r :: rs)
          | .error e => .error e)
       | .error _ =>
         if cfg.preserveOriginalOnError then
           (match stemTokensGo cfg (i + 1) rest with
            | .ok rs => .ok (s :: rs)
            | .error e => .error e)
         else .error (Err.tokenRuntime i))
    | _ => .error (Err.tokenType i)

/-- Embedding of `stem_tokens` on a list of already-validated-list
input (the None and non-list validations precede the loop). -/
def stemTokens (cfg : Config) (tokens : List PyVal) : Except Err (List (List Char)) :=
  stemTokensGo cfg 0 tokens

/-- Model of the regex class `\w` (ASCII fragment): letters, digits and
the underscore. -/
def isWordChar (c : Char) : Bool :=
  isAlphaChar c || c ∈ digitChars || c = '_'

/-- The replacement function of `stem_document`: stem the matched run,
returning the run itself if `stem_word` raises (the `except` clause of
`replace_word`). -/
def stemTokenOrKeep (cfg : Config) (run : List Char) : List Char :=
  match stemWord cfg (PyVal.strV run) with
  | .ok r => r
  | .error _ => run

/-- Emit one completed run of word characters: the run is a match of
`\b[^\W\d_]+\b` — and is then replaced — exactly when all its
characters are letters; a run containing a digit or underscore has no
interior word boundary and is emitted unchanged. -/
def docFlush (cfg : Config) (acc : List Char) : List Char :=
  if acc = [] then []
  else if acc.all isAlphaChar then stemTokenOrKeep cfg acc
  else acc

/-- The scan of `word_pattern.sub(replace_word, text)`.  The pattern
`\b[^\W\d_]+\b` anchors both ends at word boundaries, which exist only
at the edges of maximal runs of word characters, and its body admits
letters only; hence its matches are exactly the maximal word-character
runs made up entirely of letters.  The scan accumulates the current
word-character run and flushes it at each non-word character and at the
end of the text; non-word characters are copied through. -/
def docGo (cfg : Config) (acc : List Char) : List Char → List Char
  | [] => docFlush cfg acc
  | c :: rest =>
    if isWordChar c then docGo cfg (acc ++ [c]) rest
    else docFlush cfg acc ++ c :: docGo cfg [] rest

/-- Embedding of `stem_document` (with `clean_non_alphanumeric` left at
its default `False`): substitute every regex match, leaving everything
else in place.  Empty text returns empty text. -/
def stemDocument (cfg : Config) (text : List Char) : List Char :=
  docGo cfg [] text

/-! Specification-side definitions.  These follow the words of the
specification and of the claims rather than the source, and exist to be
compared with the source-derived definitions above. -/

/-- Modelled from the claim wording for step 1b: the `eed -> ee` rule
guarded by the measure, else removal of `ed` or `ing` when the stem
contains a vowel followed by an elif chain of fixups in which the
double-consonant test and the cvc test are successive elif branches. -/
def specStep1bFix (s : List Char) : List Char :=
  if (sfx "at").isSuffixOf s then s ++ sfx "e"
  else if (sfx "bl").isSuffixOf s then s ++ sfx "e"
  else if (sfx "iz").isSuffixOf s then s ++ sfx "e"
  else if endsWithDoubleConsonant s &&
      !(s.getD (s.length - 1) 'a' ∈ (['l', 's', 'z'] : List Char)) then
    s.take (s.length - 1)
  else if measure s = 1 && endsCVC s then s ++ sfx "e"
  else s

/-- Modelled from the claim wording for step 1b (see `specStep1bFix`). -/
def specStep1b (w : List Char) : List Char :=
  if (sfx "eed").isSuffixOf w then
    if 0 < measure (w.take (w.length - 3)) then w.take (w.length - 3) ++ sfx "ee" else w
  else if (sfx "ed").isSuffixOf w && containsVowel (w.take (w.length - 2)) then
    specStep1bFix (w.take (w.length - 2))
  else if (sfx "ing").isSuffixOf w && containsVowel (w.take (w.length - 3)) then
    specStep1bFix (w.take (w.length - 3))
  else w

/-- Modelled from the claim wording for step 1c: replace a final y by i
iff the dialect guard holds on the stem — Strict: the stem contains a
vowel; Extended: the stem has length above 1 and its last letter is a
consonant — and leave every other word unchanged. -/
def specStep1c (mode : Mode) (w : List Char) : List Char :=
  if (sfx "y").isSuffixOf w then
    match mode with
    | Mode.original =>
      if containsVowel (w.take (w.length - 1)) then w.take (w.length - 1) ++ sfx "i"
      else w
    | Mode.nltkExtensions =>
      if 1 < (w.take (w.length - 1)).length ∧
          isConsonant (w.take (w.length - 1)) ((w.take (w.length - 1)).length - 1) then
        w.take (w.length - 1) ++ sfx "i"
      else w
  else w

/-- The first rule of an ordered suffix table whose suffix matches the
word, the specification-side notion used to state first-suffix-match. -/
def firstSuffixMatch (w : List Char) (rules : List (List Char × List Char)) :
    Option (List Char × List Char) :=
  rules.find? (fun p => p.1.isSuffixOf w)

/-- The specification-side reading of a table step: look up only the
first matching suffix, evaluate its guard, and rewrite or leave the
word unchanged — later rules are never consulted. -/
def applyFirstMatch (minM : Nat) (w : List Char)
    (rules : List (List Char × List Char)) : Except Unit (List Char) :=
  match firstSuffixMatch w rules with
  | none => .ok w
  | some p =>
    match measureE (w.take (w.length - p.1.length)) with
    | .error e => .error e
    | .ok m => .ok (if minM < m then w.take (w.length - p.1.length) ++ p.2 else w)

/-- The 20-entry table named by claim C1, in the order the claim lists
its entries (the source order of `_step2` with `logi -> log` absent). -/
def claimStep2Table20 : List (List Char × List Char) :=
  [(sfx "ational", sfx "ate"),
   (sfx "tional", sfx "tion"),
   (sfx "enci", sfx "ence"),
   (sfx "anci", sfx "ance"),
   (sfx "izer", sfx "ize"),
   (sfx "bli", sfx "ble"),
   (sfx "alli", sfx "al"),
   (sfx "entli", sfx "ent"),
   (sfx "eli", sfx "e"),
   (sfx "ousli", sfx "ous"),
   (sfx "ization", sfx "ize"),
   (sfx "ation", sfx "ate"),
   (sfx "ator", sfx "ate"),
   (sfx "alism", sfx "al"),
   (sfx "iveness", sfx "ive"),
   (sfx "fulness", sfx "ful"),
   (sfx "ousness", sfx "ous"),
   (sfx "aliti", sfx "al"),
   (sfx "iviti", sfx "ive"),
   (sfx "biliti", sfx "ble")]

/-- Modelled from the claim wording for the document splitter: maximal
runs of letters are each replaced by their stemmed form and every other
character passes through. -/
def specDocFlush (cfg : Config) (acc : List Char) : List Char :=
  if acc = [] then [] else stemTokenOrKeep cfg acc

/-- Modelled from the claim wording for the document splitter (see
`specDocFlush`): accumulate maximal letter runs, stem each, copy
non-letter characters through. -/
def specDocGo (cfg : Config) (acc : List Char) : List Char → List Char
  | [] => specDocFlush cfg acc
  | c :: rest =>
    if isAlphaChar c then specDocGo cfg (acc ++ [c]) rest
    else specDocFlush cfg acc ++ c :: specDocGo cfg [] rest

/-- Modelled from the claim wording for `stem_document`. -/
def specStemDocument (cfg : Config) (text : List Char) : List Char :=
  specDocGo cfg [] text

end Porter

namespace Porter

/-! Helper lemmas shared across the claim theorems. -/

lemma suffix_length_le {s w : List Char} (h : s.isSuffixOf w = true) :
    s.length ≤ w.length :=
  (List.isSuffixOf_iff_suffix.mp h).length_le

lemma all_take {w : List Char} {p : Char → Bool} (h : w.all p = true) (n : Nat) :
    (w.take n).all p = true := by
  rw [List.all_eq_true] at h ⊢
  intro x hx
  exact h x (List.mem_of_mem_take hx)

lemma measure_nil : measure ([] : List Char) = 0 := rfl

lemma exSeq_eq_ok {x : Except Unit (List Char)} {f : List Char → Except Unit (List Char)}
    {r : List Char} (h : exSeq x f = .ok r) : ∃ v, x = .ok v ∧ f v = .ok r := by
  cases x with
  | ok v => exact ⟨v, rfl, h⟩
  | error e => exact Except.noConfusion h

lemma measureE_of_alpha {s : List Char} (h : s.all isAlphaChar = true) :
    measureE s = .ok (measure s) := by
  by_cases hs : s = []
  · subst hs; rfl
  · simp [measureE, hs, h]

lemma containsVowel_nil : containsVowel ([] : List Char) = false := rfl

lemma containsVowelE_of_alpha {s : List Char} (h : s.all isAlphaChar = true) :
    containsVowelE s = .ok (containsVowel s) := by
  by_cases hs : s = []
  · subst hs; rfl
  · simp [containsVowelE, hs, h]

lemma isConsonantE_of_alpha {s : List Char} {i : Nat} (hne : s ≠ []) (hi : i < s.length)
    (h : s.all isAlphaChar = true) : isConsonantE s i = .ok (isConsonant s i) := by
  simp [isConsonantE, hne, hi, h]

lemma endsWithDoubleConsonantE_of_alpha {s : List Char} (h : s.all isAlphaChar = true) :
    endsWithDoubleConsonantE s = .ok (endsWithDoubleConsonant s) := by
  unfold endsWithDoubleConsonantE endsWithDoubleConsonant
  by_cases h2 : s.length < 2
  · rw [if_pos h2, if_pos h2]
  · rw [if_neg h2, if_neg h2]
    by_cases heq : s.getD (s.length - 1) 'a' = s.getD (s.length - 2) 'a'
    · have hne : s ≠ [] := by
        intro hs
        subst hs
        simp at h2
      have hi : s.length - 1 < s.length := by
        have : 2 ≤ s.length := Nat.le_of_not_lt h2
        omega
      rw [if_pos heq, if_pos heq, isConsonantE_of_alpha hne hi h]
    · rw [if_neg heq, if_neg heq]

lemma endsCVCE_of_alpha {s : List Char} (h : s.all isAlphaChar = true) :
    endsCVCE s = .ok (endsCVC s) := by
  by_cases h3 : s.length < 3
  · simp [endsCVCE, endsCVC, h3]
  · simp [endsCVCE, h3, h]

lemma scanRulesE_eq_applyFirstMatch (minM : Nat) (w : List Char) :
    ∀ rules, scanRulesE minM w rules = applyFirstMatch minM w rules := by
  intro rules
  induction rules with
  | nil => rfl
  | cons p rest ih =>
    obtain ⟨s, r⟩ := p
    by_cases hmatch : s.isSuffixOf w = true
    · simp [scanRulesE, applyFirstMatch, firstSuffixMatch, hmatch]
    · have hnot : ¬((fun q : List Char × List Char => q.1.isSuffixOf w) (s, r) = true) :=
        hmatch
      simp only [scanRulesE, hmatch]
      rw [ih]
      simp only [applyFirstMatch, firstSuffixMatch, List.find?_cons_of_neg _ hnot]
      simp [hmatch]

/-- Claim C2: in steps 2, 3 and 4, matching is first-suffix-match rather
than first-success — each table scan is equal to looking up only the
first rule of the ordered list whose suffix matches the word, applying
its replacement when the measure guard holds and otherwise leaving the
word unchanged, with later rules never consulted (for step 4, the
special `ion` case precedes the scan of its 18-entry list exactly as in
the source). -/
theorem claim_C2 : ∀ w : List Char,
    step2 w = applyFirstMatch 0 w step2Table ∧
    step3 w = applyFirstMatch 0 w step3Table ∧
    step4 w =
      (if (sfx "ion").isSuffixOf w then
        if 0 < (w.take (w.length - 3)).length ∧
            ((w.take (w.length - 3)).getD ((w.take (w.length - 3)).length - 1) 'a' = 's' ∨
             (w.take (w.length - 3)).getD ((w.take (w.length - 3)).length - 1) 'a' = 't') then
          match measureE (w.take (w.length - 3)) with
          | .error e => .error e
          | .ok m =>
            if 1 < m then .ok (w.take (w.length - 3))
            else applyFirstMatch 1 w step4Table
        else applyFirstMatch 1 w step4Table
      else applyFirstMatch 1 w step4Table) := by
  intro w
  refine ⟨scanRulesE_eq_applyFirstMatch 0 w _, scanRulesE_eq_applyFirstMatch 0 w _, ?_⟩
  rw [step4]
  simp only [scanRulesE_eq_applyFirstMatch]

end Porter

namespace Porter

lemma getD_mem_of_lt {w : List Char} {i : Nat} (h : i < w.length) : w.getD i 'a' ∈ w := by
  rw [List.getD_eq_getElem?_getD, List.getElem?_eq_getElem h]
  exact List.getElem_mem h

lemma lowVowel_mem_vowelChars : ∀ c ∈ (['a', 'e', 'i', 'o', 'u'] : List Char),
    c ∈ vowelChars := by decide

lemma lower_not_vowel_not_y : ∀ c ∈ lowerAlphaChars,
    c ∉ (['a', 'e', 'i', 'o', 'u', 'y'] : List Char) →
    (c ∉ vowelChars ∧ ¬(c = 'y' ∨ c = 'Y')) := by decide

/-- Claim C4: on a lowercase alphabetic word, the letter classifier
makes the letters a, e, i, o, u vowels; makes y a consonant at index 0
and, at a later index, a consonant exactly when the previous position is
classified as a vowel; and makes every other letter a consonant. -/
theorem claim_C4 : ∀ (w : List Char) (i : Nat), i < w.length →
    w.all isLowerAlphaChar = true →
    ((w.getD i 'a' ∈ (['a', 'e', 'i', 'o', 'u'] : List Char)) → isConsonant w i = false) ∧
    (w.getD i 'a' = 'y' → i = 0 → isConsonant w i = true) ∧
    (w.getD i 'a' = 'y' → 0 < i → isConsonant w i = !(isConsonant w (i - 1))) ∧
    (w.getD i 'a' ∉ (['a', 'e', 'i', 'o', 'u', 'y'] : List Char) → isConsonant w i = true) := by
  intro w i hi hlow
  refine ⟨?_, ?_, ?_, ?_⟩
  · intro hv
    have hmem := lowVowel_mem_vowelChars _ hv
    rw [List.getD_eq_getElem?_getD] at hmem
    cases i with
    | zero => simp [isConsonant, hmem]
    | succ j => simp [isConsonant, hmem]
  · intro hy h0
    subst h0
    rw [List.getD_eq_getElem?_getD] at hy
    have hnv : ('y' : Char) ∉ vowelChars := by decide
    simp [isConsonant, hy, hnv]
  · intro hy hpos
    obtain ⟨j, rfl⟩ : ∃ j, i = j + 1 := ⟨i - 1, by omega⟩
    rw [List.getD_eq_getElem?_getD] at hy
    have hnv : ('y' : Char) ∉ vowelChars := by decide
    simp [isConsonant, hy, hnv]
  · intro hnv
    have hcm : w.getD i 'a' ∈ w := getD_mem_of_lt hi
    have hlc := List.all_eq_true.mp hlow _ hcm
    have hmem : w.getD i 'a' ∈ lowerAlphaChars := by
      simpa [isLowerAlphaChar] using hlc
    obtain ⟨h1, h2⟩ := lower_not_vowel_not_y _ hmem hnv
    rw [List.getD_eq_getElem?_getD] at h1 h2
    cases i with
    | zero => simp [isConsonant, h1, h2]
    | succ j => simp [isConsonant, h1, h2]

/-- Witness for claim C4 at the word happy and index 4: the final y is
classified by the previous position. -/
theorem claim_C4_witness : isConsonant (sfx "happy") 4 = !(isConsonant (sfx "happy") 3) :=
  (claim_C4 (sfx "happy") 4 (by decide) (by decide)).2.2.1 (by decide) (by decide)

lemma vcPairCount_eq (l : List Bool) :
    vcPairCount l = (List.range (l.length - 1)).countP
      (fun i => !(l.getD i true) && l.getD (i + 1) true) := by
  induction l with
  | nil => rfl
  | cons a tail ih =>
    cases tail with
    | nil => rfl
    | cons b rest =>
      have hunf : vcPairCount (a :: b :: rest) =
          (if a = false ∧ b = true then 1 else 0) + vcPairCount (b :: rest) := rfl
      rw [hunf, ih]
      simp only [List.length_cons, Nat.add_sub_cancel]
      rw [List.range_succ_eq_map, List.countP_cons, List.countP_map]
      simp only [Function.comp, List.getD_cons_succ, List.getD_cons_zero]
      rw [Nat.add_comm]
      congr 1
      cases a <;> cases b <;> simp

/-- Claim C5: the measure of a stem equals the number of adjacent
positions where a vowel is immediately followed by a consonant in the
classification of the stem, and the empty stem measures 0. -/
theorem claim_C5 :
    (∀ w : List Char, measure w =
      (List.range (w.length - 1)).countP
        (fun i => !(isConsonant w i) && isConsonant w (i + 1))) ∧
    measure ([] : List Char) = 0 := by
  constructor
  · intro w
    rw [measure, vcPairCount_eq]
    have hlen : (cvPattern w).length = w.length := by simp [cvPattern]
    rw [hlen]
    refine List.countP_congr ?_
    intro i hi_mem
    have hi : i < w.length - 1 := List.mem_range.mp hi_mem
    have h1 : i < w.length := by omega
    have h2 : i + 1 < w.length := by omega
    have g1 : (cvPattern w).getD i true = isConsonant w i := by
      simp [cvPattern, List.getD_eq_getElem?_getD, List.getElem?_eq_getElem,
        List.getElem?_range h1]
    have g2 : (cvPattern w).getD (i + 1) true = isConsonant w (i + 1) := by
      simp [cvPattern, List.getD_eq_getElem?_getD, List.getElem?_eq_getElem,
        List.getElem?_range h2]
    rw [g1, g2]
  · rfl

end Porter

namespace Porter

/-- Counterexample for claim C1: the lowercase alphabetic word analogi
matches none of the 20 suffixes the claim lists, yet step 2 rewrites it
to analog (through the 21st table entry of the source, logi to log, with
the measure-1 stem ana). -/
theorem claim_C1_counterexample :
    (sfx "analogi").all isLowerAlphaChar = true ∧
    claimStep2Table20.all (fun p => !(p.1.isSuffixOf (sfx "analogi"))) = true ∧
    step2 (sfx "analogi") = .ok (sfx "analog") ∧
    sfx "analog" ≠ sfx "analogi" := by
  refine ⟨by decide, by decide, ?_, by decide⟩
  rfl

/-- Claim C1 as amended: step 2 rewrites only via the fixed 21-entry
table of the source (the 20 entries the claim lists plus logi to log),
each entry gated by a positive measure of the stripped stem; a word
whose ending matches none of the 21 suffixes is returned unchanged, and
a word whose first matching suffix is found is rewritten exactly when
the measure guard holds. -/
theorem claim_C1 :
    (∀ w : List Char, (∀ p ∈ step2Table, p.1.isSuffixOf w = false) → step2 w = .ok w) ∧
    (∀ w : List Char, ∀ p, firstSuffixMatch w step2Table = some p →
      step2 w =
        match measureE (w.take (w.length - p.1.length)) with
        | .error e => .error e
        | .ok m => .ok (if 0 < m then w.take (w.length - p.1.length) ++ p.2 else w)) := by
  constructor
  · intro w hnone
    rw [step2, scanRulesE_eq_applyFirstMatch, applyFirstMatch, firstSuffixMatch]
    have : step2Table.find? (fun p => p.1.isSuffixOf w) = none := by
      rw [List.find?_eq_none]
      intro p hp
      simp [hnone p hp]
    rw [this]
  · intro w p hfind
    rw [step2, scanRulesE_eq_applyFirstMatch, applyFirstMatch, hfind]

/-- Witness for the amended claim C1: no suffix of the table matches
dog, so step 2 leaves it unchanged. -/
theorem claim_C1_witness : step2 (sfx "dog") = .ok (sfx "dog") :=
  claim_C1.1 (sfx "dog") (by decide)

end Porter

namespace Porter

/-- Claim C6: step 1c replaces a final y by i exactly when the dialect
guard holds on the stem — Strict (mode ORIGINAL): the stem contains a
vowel; Extended (mode NLTK_EXTENSIONS): the stem is longer than one
character and its last letter is a consonant — and otherwise, and for
every word not ending in y, it returns the word unchanged. -/
theorem claim_C6 : ∀ (mode : Mode) (w : List Char), w.all isAlphaChar = true →
    step1c mode w = .ok (specStep1c mode w) := by
  intro mode w halpha
  by_cases hy : (sfx "y").isSuffixOf w = true
  · have hstem := all_take halpha (w.length - 1)
    cases mode with
    | original =>
      rw [step1c, specStep1c, if_pos hy, if_pos hy]
      rw [containsVowelE_of_alpha hstem]
      by_cases hcv : containsVowel (w.take (w.length - 1)) = true
      · simp [hcv]
      · simp [Bool.not_eq_true] at hcv
        simp [hcv]
    | nltkExtensions =>
      rw [step1c, specStep1c, if_pos hy, if_pos hy]
      by_cases hlen : 1 < (w.take (w.length - 1)).length
      · have hne : w.take (w.length - 1) ≠ [] := by
          intro h0
          rw [h0] at hlen
          simp at hlen
        have hidx : (w.take (w.length - 1)).length - 1 < (w.take (w.length - 1)).length := by
          omega
        have hlen_take : (w.take (w.length - 1)).length = w.length - 1 := by
          rw [List.length_take]
          exact Nat.min_eq_left (Nat.sub_le _ _)
        rw [if_pos hlen, isConsonantE_of_alpha hne hidx hstem]
        rw [hlen_take] at hlen
        by_cases hc : isConsonant (w.take (w.length - 1)) (w.length - 1 - 1) = true
        · simp [hc, hlen, hlen_take]
        · rw [Bool.not_eq_true] at hc
          simp [hc, hlen_take]
      · rw [if_neg hlen, if_neg (by intro hcon; exact hlen hcon.1)]
  · simp only [step1c, specStep1c]
    rw [if_neg hy, if_neg hy]

/-- Witness for claim C6: the Strict guard on happy, whose stem happ
contains a vowel. -/
theorem claim_C6_witness :
    step1c Mode.original (sfx "happy") = .ok (specStep1c Mode.original (sfx "happy")) :=
  claim_C6 Mode.original (sfx "happy") (by decide)

end Porter

namespace Porter

lemma pyLower_of_lower : ∀ c ∈ lowerAlphaChars, pyLower c = c := by decide

lemma all_alpha_of_all_lower {w : List Char} (h : w.all isLowerAlphaChar = true) :
    w.all isAlphaChar = true := by
  rw [List.all_eq_true] at h ⊢
  intro c hc
  have := h c hc
  simp [isAlphaChar, this]

lemma last_of_suffix {s w : List Char} (hs : s ≠ []) (h : s.isSuffixOf w = true) :
    w.getD (w.length - 1) 'a' = s.getD (s.length - 1) 'a' := by
  obtain ⟨t, rfl⟩ := List.isSuffixOf_iff_suffix.mp h
  have hslen : 1 ≤ s.length := List.length_pos.mpr hs
  have hidx : t.length ≤ t.length + s.length - 1 := by omega
  have hsub : t.length + s.length - 1 - t.length = s.length - 1 := by omega
  rw [List.getD_eq_getElem?_getD, List.getD_eq_getElem?_getD, List.length_append,
    List.getElem?_append_right hidx, hsub]

lemma not_ing_of_ed {w : List Char} (hed : (sfx "ed").isSuffixOf w = true) :
    (sfx "ing").isSuffixOf w = false := by
  by_contra hcon
  rw [Bool.not_eq_false] at hcon
  have h1 := last_of_suffix (s := sfx "ed") (by decide) hed
  have h2 := last_of_suffix (s := sfx "ing") (by decide) hcon
  rw [h1] at h2
  exact absurd h2 (by decide)

lemma not_vowelChar_of_isConsonant {w : List Char} {i : Nat}
    (h : isConsonant w i = true) : w.getD i 'a' ∉ vowelChars := by
  intro hmem
  rw [List.getD_eq_getElem?_getD] at hmem
  cases i with
  | zero => simp [isConsonant, hmem] at h
  | succ j => simp [isConsonant, hmem] at h

lemma vowel_or_y_of_not_consonant {w : List Char} {i : Nat}
    (h : isConsonant w i = false) :
    w.getD i 'a' ∈ vowelChars ∨ w.getD i 'a' = 'y' ∨ w.getD i 'a' = 'Y' := by
  by_contra hcon
  push_neg at hcon
  obtain ⟨h1, h2, h3⟩ := hcon
  rw [List.getD_eq_getElem?_getD] at h1 h2 h3
  cases i with
  | zero => simp [isConsonant, h1, h2, h3] at h
  | succ j => simp [isConsonant, h1, h2, h3] at h

lemma endsDouble_not_endsCVC {w : List Char} (hd : endsWithDoubleConsonant w = true) :
    endsCVC w = false := by
  simp only [endsWithDoubleConsonant] at hd
  by_cases h2len : w.length < 2
  · rw [if_pos h2len] at hd
    exact absurd hd (by simp)
  · rw [if_neg h2len] at hd
    by_cases heq : w.getD (w.length - 1) 'a' = w.getD (w.length - 2) 'a'
    · rw [if_pos heq] at hd
      rw [endsCVC]
      split_ifs with h3len hcvc hwxy
      · rfl
      · rfl
      · exfalso
        have hnc2 : isConsonant w (w.length - 2) = false := by
          simp only [Bool.and_eq_true, Bool.not_eq_true'] at hcvc
          exact hcvc.1.2
        have hvy := vowel_or_y_of_not_consonant hnc2
        rw [← heq] at hvy
        rcases hvy with hv | hy | hY
        · exact not_vowelChar_of_isConsonant hd hv
        · rw [hy] at hwxy
          exact hwxy (by decide)
        · rw [hY] at hwxy
          exact hwxy (by decide)
      · rfl
    · rw [if_neg heq] at hd
      exact absurd hd (by simp)

lemma step1bFixE_of_lower {s : List Char} (hlow : s.all isLowerAlphaChar = true) :
    step1bFixE s = .ok (specStep1bFix s) := by
  have halpha : s.all isAlphaChar = true := all_alpha_of_all_lower hlow
  simp only [step1bFixE, specStep1bFix]
  by_cases hat : (sfx "at").isSuffixOf s = true
  · simp [hat]
  · rw [Bool.not_eq_true] at hat
    by_cases hbl : (sfx "bl").isSuffixOf s = true
    · simp [hat, hbl]
    · rw [Bool.not_eq_true] at hbl
      by_cases hiz : (sfx "iz").isSuffixOf s = true
      · simp [hat, hbl, hiz]
      · rw [Bool.not_eq_true] at hiz
        rw [endsWithDoubleConsonantE_of_alpha halpha]
        by_cases hdc : endsWithDoubleConsonant s = true
        · have hs_ne : s ≠ [] := by
            intro h0
            rw [h0] at hdc
            exact absurd hdc (by decide)
          have hlen_pos : 0 < s.length := List.length_pos.mpr hs_ne
          have hlast_mem : s.getD (s.length - 1) 'a' ∈ s := getD_mem_of_lt (by omega)
          have hlast_low : s.getD (s.length - 1) 'a' ∈ lowerAlphaChars := by
            have := List.all_eq_true.mp hlow _ hlast_mem
            simpa [isLowerAlphaChar] using this
          have hpy : pyLower (s.getD (s.length - 1) 'a') = s.getD (s.length - 1) 'a' :=
            pyLower_of_lower _ hlast_low
          by_cases hlsz : s.getD (s.length - 1) 'a' ∈ (['l', 's', 'z'] : List Char)
          · have hcvc := endsDouble_not_endsCVC hdc
            simp [hat, hbl, hiz, hdc, hpy, hlsz, hcvc,
              -List.getD_eq_getElem?_getD]
          · simp [hat, hbl, hiz, hdc, hpy, hlsz,
              -List.getD_eq_getElem?_getD]
        · rw [Bool.not_eq_true] at hdc
          rw [measureE_of_alpha halpha]
          by_cases hm : measure s = 1
          · rw [endsCVCE_of_alpha halpha]
            by_cases hcvc : endsCVC s = true
            · simp [hat, hbl, hiz, hdc, hm, hcvc, -List.getD_eq_getElem?_getD]
            · rw [Bool.not_eq_true] at hcvc
              simp [hat, hbl, hiz, hdc, hm, hcvc, -List.getD_eq_getElem?_getD]
          · simp [hat, hbl, hiz, hdc, hm, -List.getD_eq_getElem?_getD]

end Porter

namespace Porter

/-- Claim C3: step 1b rewrites `eed` to `ee` exactly when the stem has
positive measure and otherwise leaves the word unchanged; else it
removes `ed` or `ing` when the remaining stem contains a vowel and then
applies at most one of the elif-chained fixups (at/bl/iz restore an e,
else one letter of a final double consonant not in l, s, z is dropped,
else an e is appended when the measure is 1 and the stem ends
consonant-vowel-consonant).  In particular `stem_word` fixes feed and
bled under the default configuration. -/
theorem claim_C3 :
    (∀ w : List Char, w.all isLowerAlphaChar = true →
      step1b w = .ok (specStep1b w)) ∧
    stemWord defaultConfig (PyVal.strV (sfx "feed")) = .ok (sfx "feed") ∧
    stemWord defaultConfig (PyVal.strV (sfx "bled")) = .ok (sfx "bled") := by
  refine ⟨?_, by rfl, by rfl⟩
  intro w hlow
  have halpha : w.all isAlphaChar = true := all_alpha_of_all_lower hlow
  simp only [step1b, specStep1b]
  by_cases heed : (sfx "eed").isSuffixOf w = true
  · rw [if_pos heed, if_pos heed, measureE_of_alpha (all_take halpha _)]
  · rw [Bool.not_eq_true] at heed
    by_cases hed : (sfx "ed").isSuffixOf w = true
    · rw [containsVowelE_of_alpha (all_take halpha _)]
      have hing : (sfx "ing").isSuffixOf w = false := not_ing_of_ed hed
      by_cases hcv : containsVowel (w.take (w.length - 2)) = true
      · simp [heed, hed, hcv, step1bFixE_of_lower (all_take hlow _)]
      · rw [Bool.not_eq_true] at hcv
        simp [heed, hed, hcv, hing]
    · rw [Bool.not_eq_true] at hed
      by_cases hing : (sfx "ing").isSuffixOf w = true
      · rw [if_neg (by simp [heed]), if_neg (by simp [hed]), if_pos hing,
          containsVowelE_of_alpha (all_take halpha _)]
        by_cases hcv : containsVowel (w.take (w.length - 3)) = true
        · simp [heed, hed, hing, hcv, step1bFixE_of_lower (all_take hlow _)]
        · rw [Bool.not_eq_true] at hcv
          simp [heed, hed, hing, hcv]
      · rw [Bool.not_eq_true] at hing
        simp [heed, hed, hing]

/-- Witness for claim C3 at the lowercase word hopped, whose step 1b
removal of ed leaves hopp and drops one p. -/
theorem claim_C3_witness : step1b (sfx "hopped") = .ok (specStep1b (sfx "hopped")) :=
  claim_C3.1 (sfx "hopped") (by decide)

end Porter

namespace Porter

lemma docGo_all_word (cfg : Config) : ∀ (w acc : List Char), w.all isWordChar = true →
    docGo cfg acc w = docFlush cfg (acc ++ w) := by
  intro w
  induction w with
  | nil =>
    intro acc _
    simp [docGo]
  | cons c rest ih =>
    intro acc hw
    rw [List.all_eq_true] at hw
    have hc : isWordChar c = true := hw c (by simp)
    have hrest : rest.all isWordChar = true := by
      rw [List.all_eq_true]
      intro x hx
      exact hw x (by simp [hx])
    simp only [docGo, hc, if_true]
    rw [ih (acc ++ [c]) hrest]
    simp [List.append_assoc]

lemma docGo_nonword (cfg : Config) :
    ∀ t : List Char, t.all (fun ch => !(isWordChar ch)) = true → docGo cfg [] t = t := by
  intro t
  induction t with
  | nil =>
    intro _
    rfl
  | cons c rest ih =>
    intro hall
    rw [List.all_eq_true] at hall
    have hc : isWordChar c = false := by
      have := hall c (by simp)
      simpa using this
    have hrest : rest.all (fun ch => !(isWordChar ch)) = true := by
      rw [List.all_eq_true]
      intro x hx
      exact hall x (by simp [hx])
    simp only [docGo, hc]
    rw [ih hrest]
    simp [docFlush]

lemma docGo_split (cfg : Config) {c : Char} (hc : isWordChar c = false) (b : List Char) :
    ∀ (a acc : List Char),
      docGo cfg acc (a ++ c :: b) = docGo cfg acc (a ++ [c]) ++ docGo cfg [] b := by
  intro a
  induction a with
  | nil =>
    intro acc
    simp [docGo, docFlush, hc]
  | cons d a' ih =>
    intro acc
    by_cases hd : isWordChar d = true
    · simp only [List.cons_append, docGo, hd, if_true]
      exact ih (acc ++ [d])
    · rw [Bool.not_eq_true] at hd
      simp only [List.cons_append, docGo, hd, Bool.false_eq_true, if_false, List.append_eq]
      rw [ih []]
      simp [List.append_assoc]

/-- Counterexample for claim C7: in the text flies4 the letter run flies
is adjacent to a digit, so the regex `\b[^\W\d_]+\b` has no word
boundary after it and `stem_document` leaves the text unchanged, while
the claimed behavior (stem every maximal letter run) would produce
fli4. -/
theorem claim_C7_counterexample :
    specStemDocument defaultConfig (sfx "flies4") = sfx "fli4" ∧
    stemDocument defaultConfig (sfx "flies4") = sfx "flies4" ∧
    sfx "fli4" ≠ sfx "flies4" :=
  ⟨rfl, rfl, by decide⟩

/-- Claim C7 as amended: `stem_document` splits the text at non-word
characters (everything but letters, digits and underscore), which pass
through unmodified in their original order; a maximal word-character run
consisting entirely of letters is replaced by its stemmed form (with a
per-word failure substituting the original run), while a word-character
run containing a digit or underscore — including any letter run
adjacent to one — passes through unchanged. -/
theorem claim_C7 : ∀ cfg : Config,
    (∀ (a b : List Char) (c : Char), isWordChar c = false →
      stemDocument cfg (a ++ c :: b) =
        stemDocument cfg (a ++ [c]) ++ stemDocument cfg b) ∧
    (∀ w : List Char, w ≠ [] → w.all isAlphaChar = true →
      stemDocument cfg w = stemTokenOrKeep cfg w) ∧
    (∀ t : List Char, t.all (fun ch => !(isWordChar ch)) = true →
      stemDocument cfg t = t) ∧
    (∀ w : List Char, w.all isWordChar = true → ¬(w.all isAlphaChar = true) →
      stemDocument cfg w = w) := by
  intro cfg
  refine ⟨?_, ?_, ?_, ?_⟩
  · intro a b c hc
    exact docGo_split cfg hc b a []
  · intro w hne hall
    have hword : w.all isWordChar = true := by
      rw [List.all_eq_true] at hall ⊢
      intro x hx
      have := hall x hx
      simp [isWordChar, this]
    rw [stemDocument, docGo_all_word cfg w [] hword]
    simp [docFlush, hne, hall]
  · intro t hall
    exact docGo_nonword cfg t hall
  · intro w hword hnal
    by_cases hne : w = []
    · subst hne
      rfl
    · rw [stemDocument, docGo_all_word cfg w [] hword]
      simp [docFlush, hne, hnal]

/-- Witness for the amended claim C7 on concrete texts: splitting at a
hyphen, stemming a pure letter run, passing punctuation through, and
leaving a digit-containing run alone. -/
theorem claim_C7_witness :
    stemDocument defaultConfig (sfx "my-cats") =
      stemDocument defaultConfig (sfx "my-") ++ stemDocument defaultConfig (sfx "cats") ∧
    stemDocument defaultConfig (sfx "cats") = stemTokenOrKeep defaultConfig (sfx "cats") ∧
    stemDocument defaultConfig (sfx "!?.") = sfx "!?." ∧
    stemDocument defaultConfig (sfx "a1b2") = sfx "a1b2" := by
  refine ⟨?_, ?_, ?_, ?_⟩
  · exact (claim_C7 defaultConfig).1 (sfx "my") (sfx "cats") '-' (by decide)
  · exact (claim_C7 defaultConfig).2.1 (sfx "cats") (by decide) (by decide)
  · exact (claim_C7 defaultConfig).2.2.1 (sfx "!?.") (by decide)
  · exact (claim_C7 defaultConfig).2.2.2 (sfx "a1b2") (by decide) (by decide)

end Porter

namespace Porter

lemma map_pyLower_of_lower {w : List Char} (h : w.all isLowerAlphaChar = true) :
    w.map pyLower = w := by
  induction w with
  | nil => rfl
  | cons c rest ih =>
    rw [List.all_cons, Bool.and_eq_true] at h
    have hc : c ∈ lowerAlphaChars := by
      simpa [isLowerAlphaChar] using h.1
    simp [pyLower_of_lower c hc, ih h.2]

lemma lower_not_upper : ∀ c ∈ lowerAlphaChars, isUpperAlphaChar c = false := by decide

lemma applyCasePattern_lower_self {w : List Char} (hne : w ≠ [])
    (hlow : w.all isLowerAlphaChar = true) : applyCasePattern w w = .ok w := by
  have halpha := all_alpha_of_all_lower hlow
  have hnup : w.all isUpperAlphaChar = false := by
    cases w with
    | nil => exact absurd rfl hne
    | cons c rest =>
      have hc : c ∈ lowerAlphaChars := by
        rw [List.all_cons, Bool.and_eq_true] at hlow
        simpa [isLowerAlphaChar] using hlow.1
      rw [List.all_cons, lower_not_upper c hc]
      rfl
  simp only [applyCasePattern]
  rw [if_neg hne, if_neg hne, if_neg (by simp [halpha]), if_neg (by simp [hnup]),
    if_pos hlow, map_pyLower_of_lower hlow]

/-- Counterexample for claim C8: the two-letter word He is not in the
irregular table, yet under the default configuration `stem_word` returns
he, the lowercased word, not the word unchanged. -/
theorem claim_C8_counterexample :
    (sfx "He").length ≤ 2 ∧
    (specialTable defaultConfig.mode).lookup ((sfx "He").map pyLower) = none ∧
    stemWord defaultConfig (PyVal.strV (sfx "He")) = .ok (sfx "he") ∧
    sfx "he" ≠ sfx "He" :=
  ⟨by decide, rfl, rfl, by decide⟩

/-- Claim C8 as amended: a word of length at most 2 whose lowercase form
is not in the active dialect's irregular table bypasses steps 1a
through 5b; it is returned unchanged for every configuration when it is
already lowercase alphabetic, and in general (with `to_lowercase` set,
the default) the lowercased word is returned. -/
theorem claim_C8 :
    (∀ (cfg : Config) (w : List Char), w ≠ [] → w.length ≤ 2 →
      (specialTable cfg.mode).lookup (w.map pyLower) = none →
      w.all isLowerAlphaChar = true →
      stemWord cfg (PyVal.strV w) = .ok w) ∧
    (∀ (cfg : Config) (w : List Char), cfg.toLowercase = true → w ≠ [] → w.length ≤ 2 →
      (specialTable cfg.mode).lookup (w.map pyLower) = none →
      stemWord cfg (PyVal.strV w) = .ok (w.map pyLower)) := by
  constructor
  · intro cfg w hne hlen hlook hlow
    have hmap : w.map pyLower = w := map_pyLower_of_lower hlow
    have hcore : stemCoreE cfg w = .ok w := by
      simp only [stemCoreE]
      rw [hlook]
      have hlen' : (w.map pyLower).length ≤ 2 := by
        rw [hmap]
        exact hlen
      rw [if_pos hlen', hmap]
      by_cases hTL : cfg.toLowercase = true
      · rw [if_pos hTL]
      · rw [if_neg hTL, applyCasePattern_lower_self hne hlow]
    simp only [stemWord]
    rw [if_neg hne, hcore]
  · intro cfg w hTL hne hlen hlook
    have hcore : stemCoreE cfg w = .ok (w.map pyLower) := by
      simp only [stemCoreE]
      rw [hlook]
      have hlen' : (w.map pyLower).length ≤ 2 := by
        rw [List.length_map]
        exact hlen
      rw [if_pos hlen', if_pos hTL]
    simp only [stemWord]
    rw [if_neg hne, hcore]

/-- Witness for the amended claim C8: the lowercase word ox is returned
unchanged even when case preservation is configured. -/
theorem claim_C8_witness :
    stemWord (Config.mk false true Mode.original) (PyVal.strV (sfx "ox")) = .ok (sfx "ox") :=
  claim_C8.1 (Config.mk false true Mode.original) (sfx "ox")
    (by decide) (by decide) (by rfl) (by decide)

end Porter

namespace Porter

lemma stemTokensGo_err_of_exists (cfg : Config) :
    ∀ (tokens : List PyVal) (i : Nat),
      (∃ t ∈ tokens, t.isStr = false) → ∃ e, stemTokensGo cfg i tokens = .error e := by
  intro tokens
  induction tokens with
  | nil =>
    intro i h
    obtain ⟨t, ht, _⟩ := h
    exact absurd ht (List.not_mem_nil t)
  | cons t rest ih =>
    intro i hex
    cases t with
    | strV s =>
      have hex' : ∃ t ∈ rest, t.isStr = false := by
        obtain ⟨t', ht', hf⟩ := hex
        rcases List.mem_cons.mp ht' with rfl | hmem
        · exact absurd hf (by simp [PyVal.isStr])
        · exact ⟨t', hmem, hf⟩
      obtain ⟨e, he⟩ := ih (i + 1) hex'
      cases hsw : stemWord cfg (PyVal.strV s) with
      | ok r => exact ⟨e, by simp [stemTokensGo, hsw, he]⟩
      | error e2 =>
        by_cases hp : cfg.preserveOriginalOnError = true
        · exact ⟨e, by simp [stemTokensGo, hsw, hp, he]⟩
        · exact ⟨Err.tokenRuntime i, by simp [stemTokensGo, hsw, hp]⟩
    | noneV => exact ⟨Err.tokenType i, by simp [stemTokensGo]⟩
    | intV n => exact ⟨Err.tokenType i, by simp [stemTokensGo]⟩

lemma stemTokensGo_typeErr (cfg : Config) (hp : cfg.preserveOriginalOnError = true) :
    ∀ (tokens : List PyVal) (k i : Nat), i < tokens.length →
      (tokens.getD i (PyVal.strV [])).isStr = false →
      (∀ j, j < i → (tokens.getD j (PyVal.strV [])).isStr = true) →
      stemTokensGo cfg k tokens = .error (Err.tokenType (k + i)) := by
  intro tokens
  induction tokens with
  | nil =>
    intro k i hi
    simp at hi
  | cons t rest ih =>
    intro k i hi hstr hprev
    cases i with
    | zero =>
      have ht : t.isStr = false := by simpa using hstr
      cases t with
      | strV s => simp [PyVal.isStr] at ht
      | noneV => simp [stemTokensGo]
      | intV n => simp [stemTokensGo]
    | succ i' =>
      have ht : t.isStr = true := by
        have := hprev 0 (Nat.succ_pos _)
        simpa using this
      cases t with
      | strV s =>
        have hi' : i' < rest.length := by simpa using hi
        have hstr' : (rest.getD i' (PyVal.strV [])).isStr = false := by simpa using hstr
        have hprev' : ∀ j, j < i' → (rest.getD j (PyVal.strV [])).isStr = true := by
          intro j hj
          have := hprev (j + 1) (by omega)
          simpa using this
        have hrec := ih (k + 1) i' hi' hstr' hprev'
        have harith : k + 1 + i' = k + (i' + 1) := by omega
        rw [harith] at hrec
        cases hsw : stemWord cfg (PyVal.strV s) with
        | ok r => simp [stemTokensGo, hsw, hrec]
        | error e => simp [stemTokensGo, hsw, hp, hrec]
      | noneV => simp [PyVal.isStr] at ht
      | intV n => simp [PyVal.isStr] at ht

/-- Counterexample for claim C9: with `preserve_original_on_error` off,
the token list whose first element is the empty string and whose second
element is the non-string 0 makes `stem_tokens` raise the wrapping
RuntimeError for index 0 — the empty string fails `stem_word`
validation first — and not a type-mismatch error reporting the
offending index 1. -/
theorem claim_C9_counterexample :
    (PyVal.intV 0).isStr = false ∧
    stemTokens (Config.mk true false Mode.original) [PyVal.strV [], PyVal.intV 0] =
      .error (Err.tokenRuntime 0) ∧
    ∀ i : Nat, Err.tokenRuntime 0 ≠ Err.tokenType i := by
  refine ⟨rfl, rfl, ?_⟩
  intro i h
  exact Err.noConfusion h

/-- Claim C9 as amended: `stem_word` validation failures (None, empty,
non-string) are surfaced under every configuration, including
`preserve_original_on_error`; `stem_tokens` raises some error whenever
an element is not a string; and the raised error is a type-mismatch
naming the first offending index whenever `preserve_original_on_error`
is set (with it unset, the stemming failure of an earlier string
element can surface first as a wrapped index-bearing RuntimeError, as
the counterexample shows). -/
theorem claim_C9 :
    (∀ cfg : Config,
      stemWord cfg PyVal.noneV = .error Err.invalidNone ∧
      stemWord cfg (PyVal.strV []) = .error Err.invalidEmpty ∧
      ∀ n : Int, stemWord cfg (PyVal.intV n) = .error Err.invalidType) ∧
    (∀ (cfg : Config) (tokens : List PyVal),
      (∃ t ∈ tokens, t.isStr = false) → ∃ e, stemTokens cfg tokens = .error e) ∧
    (∀ (cfg : Config) (tokens : List PyVal) (i : Nat),
      cfg.preserveOriginalOnError = true → i < tokens.length →
      (tokens.getD i (PyVal.strV [])).isStr = false →
      (∀ j, j < i → (tokens.getD j (PyVal.strV [])).isStr = true) →
      stemTokens cfg tokens = .error (Err.tokenType i)) := by
  refine ⟨?_, ?_, ?_⟩
  · intro cfg
    exact ⟨rfl, rfl, fun n => rfl⟩
  · intro cfg tokens hex
    exact stemTokensGo_err_of_exists cfg tokens 0 hex
  · intro cfg tokens i hp hi hstr hprev
    have h := stemTokensGo_typeErr cfg hp tokens 0 i hi hstr hprev
    simpa [stemTokens] using h

/-- Witness for the amended claim C9: with the default configuration the
non-string token at index 1 is reported by a type-mismatch error. -/
theorem claim_C9_witness :
    stemTokens defaultConfig [PyVal.strV (sfx "ab"), PyVal.intV 3] =
      .error (Err.tokenType 1) :=
  claim_C9.2.2 defaultConfig [PyVal.strV (sfx "ab"), PyVal.intV 3] 1 rfl (by decide)
    (by rfl)
    (by
      intro j hj
      cases j with
      | zero => rfl
      | succ m => omega)

end Porter

namespace Porter

lemma measureE_ok_pos_ne_nil {s : List Char} {m : Nat}
    (h : measureE s = .ok m) (hm : 0 < m) : s ≠ [] := by
  intro h0
  subst h0
  have hm0 : m = 0 := by
    simpa [measureE] using h.symm
  omega

lemma containsVowelE_true_ne_nil {s : List Char}
    (h : containsVowelE s = .ok true) : s ≠ [] := by
  intro h0
  subst h0
  simp [containsVowelE] at h

lemma endsWithDoubleConsonantE_true_len {s : List Char}
    (h : endsWithDoubleConsonantE s = .ok true) : 2 ≤ s.length := by
  by_contra hlen
  push_neg at hlen
  simp [endsWithDoubleConsonantE, hlen] at h

lemma take_ne_nil_of_pos {w : List Char} {n : Nat} (hn : 0 < n) (hw : 0 < w.length) :
    w.take n ≠ [] := by
  have : 0 < (w.take n).length := by
    rw [List.length_take]
    omega
  exact List.ne_nil_of_length_pos this

lemma append_sfx_ne_nil {a : List Char} {s : String} (hs : sfx s ≠ []) :
    a ++ sfx s ≠ [] := by
  intro hcon
  exact hs (List.append_eq_nil.mp hcon).2

lemma scanRulesE_ne_nil {minM : Nat} {w r : List Char} :
    ∀ rules, scanRulesE minM w rules = .ok r → w ≠ [] → r ≠ [] := by
  intro rules
  induction rules with
  | nil =>
    intro h hw
    simp only [scanRulesE] at h
    cases h
    exact hw
  | cons p rest ih =>
    obtain ⟨s, rr⟩ := p
    intro h hw
    by_cases hm : s.isSuffixOf w = true
    · simp only [scanRulesE, hm, if_true] at h
      cases hme : measureE (w.take (w.length - s.length)) with
      | error e =>
        rw [hme] at h
        simp only [] at h
        exact Except.noConfusion h
      | ok m =>
        rw [hme] at h
        simp only [] at h
        cases h
        by_cases hguard : minM < m
        · rw [if_pos hguard]
          intro hcon
          exact measureE_ok_pos_ne_nil hme (by omega) (List.append_eq_nil.mp hcon).1
        · rw [if_neg hguard]
          exact hw
    · simp only [scanRulesE, hm] at h
      exact ih (by simpa [hm] using h) hw

lemma step1bFixE_ne_nil {s r : List Char} (h : step1bFixE s = .ok r) (hs : s ≠ []) :
    r ≠ [] := by
  have hlen : 0 < s.length := List.length_pos.mpr hs
  simp only [step1bFixE] at h
  by_cases hat : (sfx "at").isSuffixOf s = true
  · rw [if_pos hat] at h
    cases h
    exact append_sfx_ne_nil (by decide)
  · rw [if_neg hat] at h
    by_cases hbl : (sfx "bl").isSuffixOf s = true
    · rw [if_pos hbl] at h
      cases h
      exact append_sfx_ne_nil (by decide)
    · rw [if_neg hbl] at h
      by_cases hiz : (sfx "iz").isSuffixOf s = true
      · rw [if_pos hiz] at h
        cases h
        exact append_sfx_ne_nil (by decide)
      · rw [if_neg hiz] at h
        cases hdc : endsWithDoubleConsonantE s with
        | error e =>
          rw [hdc] at h
          simp only [] at h
          exact Except.noConfusion h
        | ok b =>
          rw [hdc] at h
          cases b with
          | true =>
            simp only [] at h
            have h2 : 2 ≤ s.length := endsWithDoubleConsonantE_true_len hdc
            by_cases hlsz : pyLower (s.getD (s.length - 1) 'a') ∈ (['l', 's', 'z'] : List Char)
            · rw [if_pos hlsz] at h
              cases h
              exact hs
            · rw [if_neg hlsz] at h
              cases h
              exact take_ne_nil_of_pos (by omega) hlen
          | false =>
            simp only [] at h
            cases hme : measureE s with
            | error e =>
              rw [hme] at h
              simp only [] at h
              exact Except.noConfusion h
            | ok m =>
              rw [hme] at h
              simp only [] at h
              by_cases hm1 : m = 1
              · rw [if_pos hm1] at h
                cases hcvc : endsCVCE s with
                | error e =>
                  rw [hcvc] at h
                  simp only [] at h
                  exact Except.noConfusion h
                | ok b2 =>
                  rw [hcvc] at h
                  cases b2 with
                  | true =>
                    simp only [] at h
                    rw [if_true] at h
                    cases h
                    exact append_sfx_ne_nil (by decide)
                  | false =>
                    simp only [] at h
                    rw [if_neg (by simp)] at h
                    cases h
                    exact hs
              · rw [if_neg hm1] at h
                cases h
                exact hs

lemma step1a_ne_nil {mode : Mode} {w : List Char} (hw : 3 ≤ w.length) :
    step1a mode w ≠ [] := by
  have hpos : 0 < w.length := by omega
  simp only [step1a]
  by_cases h1 : (sfx "sses").isSuffixOf w = true
  · rw [if_pos h1]
    exact take_ne_nil_of_pos (by omega) hpos
  · rw [if_neg h1]
    by_cases h2 : mode = Mode.nltkExtensions ∧ (sfx "ies").isSuffixOf w = true ∧ w.length = 4
    · rw [if_pos h2]
      exact take_ne_nil_of_pos (by omega) hpos
    · rw [if_neg h2]
      by_cases h3 : (sfx "ies").isSuffixOf w = true
      · rw [if_pos h3]
        exact take_ne_nil_of_pos (by omega) hpos
      · rw [if_neg h3]
        by_cases h4 : (sfx "ss").isSuffixOf w = true
        · rw [if_pos h4]
          exact List.ne_nil_of_length_pos hpos
        · rw [if_neg h4]
          by_cases h5 : (sfx "s").isSuffixOf w = true
          · rw [if_pos h5]
            exact take_ne_nil_of_pos (by omega) hpos
          · rw [if_neg h5]
            exact List.ne_nil_of_length_pos hpos

lemma step1b_ne_nil {w r : List Char} (h : step1b w = .ok r) (hw : w ≠ []) : r ≠ [] := by
  simp only [step1b] at h
  by_cases heed : (sfx "eed").isSuffixOf w = true
  · rw [if_pos heed] at h
    cases hme : measureE (w.take (w.length - 3)) with
    | error e =>
      rw [hme] at h
      simp only [] at h
      exact Except.noConfusion h
    | ok m =>
      rw [hme] at h
      simp only [] at h
      cases h
      by_cases h0 : 0 < m
      · rw [if_pos h0]
        exact append_sfx_ne_nil (by decide)
      · rw [if_neg h0]
        exact hw
  · rw [if_neg heed] at h
    by_cases hed : (sfx "ed").isSuffixOf w = true
    · rw [if_pos hed] at h
      cases hcv : containsVowelE (w.take (w.length - 2)) with
      | error e =>
        rw [hcv] at h
        simp only [] at h
        exact Except.noConfusion h
      | ok b =>
        rw [hcv] at h
        cases b with
        | true =>
          simp only [] at h
          exact step1bFixE_ne_nil h (containsVowelE_true_ne_nil hcv)
        | false =>
          simp only [] at h
          cases h
          exact hw
    · rw [if_neg hed] at h
      by_cases hing : (sfx "ing").isSuffixOf w = true
      · rw [if_pos hing] at h
        cases hcv : containsVowelE (w.take (w.length - 3)) with
        | error e =>
          rw [hcv] at h
          simp only [] at h
          exact Except.noConfusion h
        | ok b =>
          rw [hcv] at h
          cases b with
          | true =>
            simp only [] at h
            exact step1bFixE_ne_nil h (containsVowelE_true_ne_nil hcv)
          | false =>
            simp only [] at h
            cases h
            exact hw
      · rw [if_neg hing] at h
        cases h
        exact hw

lemma step1c_ne_nil {mode : Mode} {w r : List Char} (h : step1c mode w = .ok r)
    (hw : w ≠ []) : r ≠ [] := by
  simp only [step1c] at h
  by_cases hy : (sfx "y").isSuffixOf w = true
  · rw [if_pos hy] at h
    cases mode with
    | nltkExtensions =>
      by_cases hlen : 1 < (w.take (w.length - 1)).length
      · rw [if_pos hlen] at h
        cases hic : isConsonantE (w.take (w.length - 1)) ((w.take (w.length - 1)).length - 1) with
        | error e =>
          rw [hic] at h
          simp only [] at h
          exact Except.noConfusion h
        | ok c =>
          rw [hic] at h
          cases c with
          | true =>
            simp only [] at h
            rw [if_true] at h
            cases h
            exact append_sfx_ne_nil (by decide)
          | false =>
            simp only [] at h
            rw [if_neg (by simp)] at h
            cases h
            exact hw
      · rw [if_neg hlen] at h
        cases h
        exact hw
    | original =>
      cases hcv : containsVowelE (w.take (w.length - 1)) with
      | error e =>
        rw [hcv] at h
        simp only [] at h
        exact Except.noConfusion h
      | ok b =>
        rw [hcv] at h
        cases b with
        | true =>
          simp only [] at h
          rw [if_true] at h
          cases h
          exact append_sfx_ne_nil (by decide)
        | false =>
          simp only [] at h
          rw [if_neg (by simp)] at h
          cases h
          exact hw
  · rw [if_neg hy] at h
    cases h
    exact hw

lemma step4_ne_nil {w r : List Char} (h : step4 w = .ok r) (hw : w ≠ []) : r ≠ [] := by
  simp only [step4] at h
  by_cases hion : (sfx "ion").isSuffixOf w = true
  · rw [if_pos hion] at h
    by_cases hst : 0 < (w.take (w.length - 3)).length ∧
        ((w.take (w.length - 3)).getD ((w.take (w.length - 3)).length - 1) 'a' = 's' ∨
         (w.take (w.length - 3)).getD ((w.take (w.length - 3)).length - 1) 'a' = 't')
    · rw [if_pos hst] at h
      cases hme : measureE (w.take (w.length - 3)) with
      | error e =>
        rw [hme] at h
        simp only [] at h
        exact Except.noConfusion h
      | ok m =>
        rw [hme] at h
        simp only [] at h
        by_cases hm : 1 < m
        · rw [if_pos hm] at h
          cases h
          exact List.ne_nil_of_length_pos hst.1
        · rw [if_neg hm] at h
          exact scanRulesE_ne_nil _ h hw
    · rw [if_neg hst] at h
      exact scanRulesE_ne_nil _ h hw
  · rw [if_neg hion] at h
    exact scanRulesE_ne_nil _ h hw

lemma step5a_ne_nil {w r : List Char} (h : step5a w = .ok r) (hw : w ≠ []) : r ≠ [] := by
  simp only [step5a] at h
  by_cases he : (sfx "e").isSuffixOf w = true
  · rw [if_pos he] at h
    cases hme : measureE (w.take (w.length - 1)) with
    | error e =>
      rw [hme] at h
      simp only [] at h
      exact Except.noConfusion h
    | ok m =>
      rw [hme] at h
      simp only [] at h
      by_cases hm : 1 < m
      · rw [if_pos hm] at h
        cases h
        exact measureE_ok_pos_ne_nil hme (by omega)
      · rw [if_neg hm] at h
        by_cases hm1 : m = 1
        · rw [if_pos hm1] at h
          cases hcvc : endsCVCE (w.take (w.length - 1)) with
          | error e =>
            rw [hcvc] at h
            simp only [] at h
            exact Except.noConfusion h
          | ok b =>
            rw [hcvc] at h
            cases b with
            | true =>
              simp only [] at h
              rw [if_true] at h
              cases h
              exact hw
            | false =>
              simp only [] at h
              rw [if_neg (by simp)] at h
              cases h
              exact measureE_ok_pos_ne_nil hme (by omega)
        · rw [if_neg hm1] at h
          cases h
          exact hw
  · rw [if_neg he] at h
    cases h
    exact hw

lemma step5b_ne_nil {w r : List Char} (h : step5b w = .ok r) (hw : w ≠ []) : r ≠ [] := by
  simp only [step5b] at h
  by_cases hll : (sfx "ll").isSuffixOf w = true
  · rw [if_pos hll] at h
    cases hme : measureE (w.take (w.length - 1)) with
    | error e =>
      rw [hme] at h
      simp only [] at h
      exact Except.noConfusion h
    | ok m =>
      rw [hme] at h
      simp only [] at h
      cases h
      by_cases hm : 1 < m
      · rw [if_pos hm]
        exact measureE_ok_pos_ne_nil hme (by omega)
      · rw [if_neg hm]
        exact hw
  · rw [if_neg hll] at h
    cases h
    exact hw

lemma pipelineE_ne_nil {mode : Mode} {w r : List Char} (hw : 3 ≤ w.length)
    (h : pipelineE mode w = .ok r) : r ≠ [] := by
  simp only [pipelineE] at h
  obtain ⟨w2, h2, h⟩ := exSeq_eq_ok h
  obtain ⟨w3, h3, h⟩ := exSeq_eq_ok h
  obtain ⟨w4, h4, h⟩ := exSeq_eq_ok h
  obtain ⟨w5, h5, h⟩ := exSeq_eq_ok h
  obtain ⟨w6, h6, h⟩ := exSeq_eq_ok h
  obtain ⟨w7, h7, h⟩ := exSeq_eq_ok h
  have n1 : step1a mode w ≠ [] := step1a_ne_nil hw
  have n2 : w2 ≠ [] := step1b_ne_nil h2 n1
  have n3 : w3 ≠ [] := step1c_ne_nil h3 n2
  have n4 : w4 ≠ [] := scanRulesE_ne_nil _ h4 n3
  have n5 : w5 ≠ [] := scanRulesE_ne_nil _ h5 n4
  have n6 : w6 ≠ [] := step4_ne_nil h6 n5
  have n7 : w7 ≠ [] := step5a_ne_nil h7 n6
  exact step5b_ne_nil h n7

lemma applyCasePattern_ne_nil {orig stemmed r : List Char} (hs : stemmed ≠ [])
    (h : applyCasePattern orig stemmed = .ok r) : r ≠ [] := by
  simp only [applyCasePattern] at h
  rw [if_neg hs] at h
  by_cases ho : orig = []
  · rw [if_pos ho] at h
    cases h
    simpa [List.map_eq_nil_iff] using hs
  · rw [if_neg ho] at h
    by_cases hal : (!(orig.all isAlphaChar)) = true
    · rw [if_pos hal] at h
      exact Except.noConfusion h
    · rw [if_neg hal] at h
      by_cases hup : orig.all isUpperAlphaChar = true
      · rw [if_pos hup] at h
        cases h
        simpa [List.map_eq_nil_iff] using hs
      · rw [if_neg hup] at h
        by_cases hlo : orig.all isLowerAlphaChar = true
        · rw [if_pos hlo] at h
          cases h
          simpa [List.map_eq_nil_iff] using hs
        · rw [if_neg hlo] at h
          cases h
          simpa [List.map_eq_nil_iff, List.enum_eq_nil] using hs

lemma mem_of_lookup {l : List (List Char × List Char)} {k v : List Char}
    (h : l.lookup k = some v) : (k, v) ∈ l := by
  obtain ⟨l₁, l₂, rfl, _⟩ := List.lookup_eq_some_iff.mp h
  simp

lemma specialTable_value_ne_nil {mode : Mode} {k v : List Char}
    (h : (specialTable mode).lookup k = some v) : v ≠ [] := by
  have hmem := mem_of_lookup h
  cases mode with
  | original =>
    have hall : ∀ p ∈ originalSpecialWords, p.2 ≠ [] := by decide
    exact hall _ hmem
  | nltkExtensions =>
    have hall : ∀ p ∈ nltkSpecialWords, p.2 ≠ [] := by decide
    exact hall _ hmem

lemma stemCoreE_ne_nil {cfg : Config} {w r : List Char} (hw : w ≠ [])
    (h : stemCoreE cfg w = .ok r) : r ≠ [] := by
  have hmap : w.map pyLower ≠ [] := by
    simpa [List.map_eq_nil_iff] using hw
  simp only [stemCoreE] at h
  cases hlook : (specialTable cfg.mode).lookup (w.map pyLower) with
  | some v =>
    rw [hlook] at h
    simp only [] at h
    have hv : v ≠ [] := specialTable_value_ne_nil hlook
    by_cases hTL : cfg.toLowercase = true
    · rw [if_pos hTL] at h
      cases h
      exact hv
    · rw [if_neg hTL] at h
      exact applyCasePattern_ne_nil hv h
  | none =>
    rw [hlook] at h
    simp only [] at h
    by_cases hlen : (w.map pyLower).length ≤ 2
    · rw [if_pos hlen] at h
      by_cases hTL : cfg.toLowercase = true
      · rw [if_pos hTL] at h
        cases h
        exact hmap
      · rw [if_neg hTL] at h
        exact applyCasePattern_ne_nil hmap h
    · rw [if_neg hlen] at h
      obtain ⟨res, hres, h⟩ := exSeq_eq_ok h
      have hres_ne : res ≠ [] := pipelineE_ne_nil (by omega) hres
      by_cases hTL : cfg.toLowercase = true
      · rw [if_pos hTL] at h
        cases h
        exact hres_ne
      · rw [if_neg hTL] at h
        exact applyCasePattern_ne_nil hres_ne h

/-- Claim C10: for every configuration, a non-empty string input on
which `stem_word` returns normally yields a non-empty stem — the
irregular lookup, the short-word path, the step pipeline, case
restoration and the preserve-original error path all preserve
non-emptiness. -/
theorem claim_C10 : ∀ (cfg : Config) (w r : List Char), w ≠ [] →
    stemWord cfg (PyVal.strV w) = .ok r → r ≠ [] := by
  intro cfg w r hw h
  simp only [stemWord] at h
  rw [if_neg hw] at h
  cases hcore : stemCoreE cfg w with
  | ok r2 =>
    rw [hcore] at h
    simp only [] at h
    cases h
    exact stemCoreE_ne_nil hw hcore
  | error e =>
    rw [hcore] at h
    simp only [] at h
    by_cases hp : cfg.preserveOriginalOnError = true
    · rw [if_pos hp] at h
      cases h
      exact hw
    · rw [if_neg hp] at h
      exact Except.noConfusion h

/-- Witness for claim C10: the word running stems to the non-empty run
under the default configuration. -/
theorem claim_C10_witness : sfx "run" ≠ [] :=
  claim_C10 defaultConfig (sfx "running") (sfx "run") (by decide) (by rfl)

end Porter
